import Mathlib

/-!
Verification of the SheetQL session registry and batch-script engine
(`sheet_ql.py`) against its specification.  Table names, file paths and
sheet names are modelled as lists of characters; the DuckDB catalog is
modelled at the engine boundary as an ordered list of view names with
case-insensitive, case-preserving identifier resolution; the schema
cache and other Python dicts are modelled as insertion-ordered
association lists.
-/

/-- Table names, paths and sheet names, as character lists. -/
abbrev Name := List Char

/-- Lower-casing of a name, character by character (models `str.lower`). -/
def lowerName (n : Name) : Name := n.map Char.toLower

/-- Characters matched by the regex class `[a-zA-Z0-9_]` in
`re.sub(r"[^a-zA-Z0-9_]+", "_", ...)`. -/
def isWordChar (c : Char) : Bool :=
  (('a' ≤ c && c ≤ 'z') || ('A' ≤ c && c ≤ 'Z') || ('0' ≤ c && c ≤ '9') || c = '_')

/-- Run-replacement state machine for
`re.sub(r"[^a-zA-Z0-9_]+", "_", s)`: the flag records whether the
previous character belonged to a non-word run whose underscore has
already been emitted. -/
def sanitizeAux : Bool → Name → Name
  | _, [] => []
  | inRun, c :: cs =>
    if isWordChar c then c :: sanitizeAux false cs
    else if inRun then sanitizeAux true cs
    else '_' :: sanitizeAux true cs

/-- Embedding of `re.sub(r"[^a-zA-Z0-9_]+", "_", s)` from `_load_data`:
every maximal run of characters outside `[a-zA-Z0-9_]` is replaced by a
single underscore. -/
def sanitize (n : Name) : Name := sanitizeAux false n

/-- Boolean substring test: models the Python expression `needle in haystack`
on strings (used by the alias matcher in `_execute_yaml_script`). -/
def isSubstring (needle haystack : Name) : Bool :=
  match haystack with
  | [] => needle.isEmpty
  | _ :: rest => needle.isPrefixOf haystack || isSubstring needle rest

/-- Models `os.path.basename` (POSIX): the part of the path after the
last slash. -/
def basenameOf (p : Name) : Name :=
  ((p.reverse.takeWhile (fun c => c ≠ '/')).reverse)

/-- Models `os.path.splitext` applied to a basename: splits off the part
from the last dot, except that leading dots never start an extension. -/
def splitextOf (b : Name) : Name × Name :=
  let lead := b.takeWhile (fun c => c = '.')
  let rest := b.drop lead.length
  let rext := rest.reverse.takeWhile (fun c => c ≠ '.')
  if rext.length = rest.length then (b, [])
  else (lead ++ rest.take (rest.length - rext.length - 1), '.' :: rext.reverse)

/-- The file's base name without directory and extension, as computed in
`_load_data` before sanitization. -/
def stemOf (p : Name) : Name := (splitextOf (basenameOf p)).1

/-- The lower-cased extension used for format dispatch in `_load_data`:
`os.path.splitext(file_path)[1].lower()`. -/
def extOf (p : Name) : Name := lowerName (splitextOf (basenameOf p)).2

/-- The single-table source formats of `_load_data` (parquet, csv, json). -/
inductive Fmt where
  | parquet
  | csv
  | json
deriving DecidableEq, Repr

/-- The name suffix appended by `_load_data` for each single-table format. -/
def fmtSuffix : Fmt → Name
  | Fmt.parquet => "_parquet".toList
  | Fmt.csv => "_csv".toList
  | Fmt.json => "_json".toList

/-- Extension dispatch of `_load_data` for single-table formats:
`.parquet`, `.csv`, and `.json`/`.jsonl`. -/
def fmtOfExt (e : Name) : Option Fmt :=
  if e = ".parquet".toList then some Fmt.parquet
  else if e = ".csv".toList then some Fmt.csv
  else if e = ".json".toList || e = ".jsonl".toList then some Fmt.json
  else none

/-- Whether the extension dispatches to the multi-sheet Excel branch
(`.xlsx` or `.xls`). -/
def isExcelExt (e : Name) : Bool :=
  e = ".xlsx".toList || e = ".xls".toList

/-- The table name `_load_data` derives for a single-table file:
sanitized stem plus the format suffix (`f"{base}_csv"` and friends). -/
def tableName (p : Name) (f : Fmt) : Name := sanitize (stemOf p) ++ fmtSuffix f

/-- The per-sheet table name `_load_data` derives in the Excel branch:
`f"{base}_{clean_sheet}"` with `clean_sheet = re.sub(...).lower()`. -/
def sheetTableName (p : Name) (sheet : Name) : Name :=
  sanitize (stemOf p) ++ '_' :: lowerName (sanitize sheet)

/-- The session registry: the DuckDB catalog's view names in creation
order.  DuckDB is the external engine of spec section 6; its identifier
resolution is case-insensitive and case-preserving. -/
abbrev Registry := List Name

/-- Case-insensitive identifier resolution in the engine catalog:
the stored name matching `n` ignoring case, if any. -/
def resolves (reg : Registry) (n : Name) : Option Name :=
  reg.find? (fun k => lowerName k = lowerName n)

/-- Models the engine boundary call `rename_view(old, new)`
(`ALTER VIEW "old" RENAME TO "new"` in the code): fails when `old` does
not resolve or `new` already resolves; on success the resolved entry is
replaced in place by `new` as given. -/
def renameView (reg : Registry) (old new : Name) : Except Unit Registry :=
  match resolves reg old with
  | none => Except.error ()
  | some k =>
    if (resolves reg new).isSome then Except.error ()
    else Except.ok (reg.map (fun x => if x = k then new else x))

/-- The schema cache: a Python dict from table name to column list,
modelled as an insertion-ordered association list with unique keys. -/
abbrev Cache := List (Name × List Name)

/-- Dict lookup: value of the first entry with the given key. -/
def dictGet (c : Cache) (k : Name) : Option (List Name) :=
  (c.find? (fun e => e.1 = k)).map (fun e => e.2)

/-- Dict membership (`k in d`). -/
def dictHasKey (c : Cache) (k : Name) : Bool :=
  c.any (fun e => e.1 = k)

/-- Dict assignment `d[k] = v`: update in place when the key is present,
append at the end otherwise. -/
def dictSet (c : Cache) (k : Name) (v : List Name) : Cache :=
  if dictHasKey c k then c.map (fun e => if e.1 = k then (k, v) else e)
  else c ++ [(k, v)]

/-- Dict removal `d.pop(k)`: drop the entry with the given key. -/
def dictPop (c : Cache) (k : Name) : Cache :=
  c.filter (fun e => e.1 ≠ k)

/-- The cache move of `SheetQL._rename_table` (lines 654-665), run only
after a successful engine rename: the key is found by a
case-insensitive lookup (first match, defaulting to the old name as
typed) and, when present, its entry is popped and re-assigned under the
new name. -/
def renameCacheUpdate (cache : Cache) (old new : Name) : Cache :=
  let actualKey :=
    match cache.find? (fun e => lowerName e.1 = lowerName old) with
    | some e => e.1
    | none => old
  match cache.find? (fun e => e.1 = actualKey) with
  | some e => dictSet (dictPop cache actualKey) new e.2
  | none => cache

/-- Embedding of `SheetQL._rename_table` for `.rename old new`: the
engine rename runs first; on engine failure the exception is caught and
nothing changes (the cache code is skipped); on success the cache move
`renameCacheUpdate` runs. -/
def renameTable (reg : Registry) (cache : Cache) (old new : Name) :
    Registry × Cache :=
  match renameView reg old new with
  | Except.error _ => (reg, cache)
  | Except.ok reg2 => (reg2, renameCacheUpdate cache old new)

/-- Models `fname.split(".")[0]`: the part of the file name before the
first dot (the whole name when it has no dot). -/
def splitDotHead (fname : Name) : Name :=
  fname.takeWhile (fun c => c ≠ '.')

/-- One alias-map entry applied to one loaded table inside the alias
loop of `_execute_yaml_script`: when `fname.split(".")[0] in tbl`, an
engine rename of `tbl` to the alias is attempted and any engine error is
swallowed (`except Exception: pass`); otherwise nothing happens. -/
def aliasStep1 (reg : Registry) (tbl : Name) (fa : Name × Name) : Registry :=
  if isSubstring (splitDotHead fa.1) tbl then
    match renameView reg tbl fa.2 with
    | Except.ok reg2 => reg2
    | Except.error _ => reg
  else reg

/-- The alias loop of `_execute_yaml_script` (lines 728-737): for each
loaded table, every alias-map entry is tried in order. -/
def aliasApply (reg : Registry) (loaded : List Name)
    (aliasMap : List (Name × Name)) : Registry :=
  loaded.foldl (fun r tbl => aliasMap.foldl (fun r2 fa => aliasStep1 r2 tbl fa) r) reg

/-- The alias phase of `_execute_yaml_script` as it acts on the whole
session state: the loop mutates only the engine catalog; the schema
cache is not mentioned anywhere in lines 728-737 and passes through
unchanged. -/
def aliasPhase (reg : Registry) (cache : Cache) (loaded : List Name)
    (aliasMap : List (Name × Name)) : Registry × Cache :=
  (aliasApply reg loaded aliasMap, cache)

/-- A staged tabular result (opaque to the core: the writer consumes it). -/
abbrev Df := Nat

/-- The Result Stage `results_to_save`: a Python dict from sheet name to
result, modelled as an insertion-ordered association list. -/
abbrev Stage := List (Name × Df)

/-- The external spreadsheet writer at the boundary of spec section 6:
given the destination path and the full name-to-result mapping it either
succeeds (`true`) or raises (`false`). -/
abbrev SheetWriter := Name → Stage → Bool

/-- Embedding of `SheetQL._save_to_excel`: the whole body runs inside a
`try`; the writer receives the full staged mapping; only after a
successful write are the export recorded and the stage cleared
(`self.results_to_save.clear()`); a raising writer is caught and leaves
both untouched. -/
def saveToExcel (w : SheetWriter) (path : Name) (stage : Stage)
    (exports : List Name) : Stage × List Name :=
  if w path stage then ([], exports ++ [path])
  else (stage, exports)

/-- An export block of a parsed script: the mapping under the `export`
key, e.g. `{path: out.xlsx}`, as an association list. -/
abbrev ExportBlock := List (Name × Name)

/-- Lookup in an export block (`config["export"]["path"]`). -/
def blockGet (b : ExportBlock) (k : Name) : Option Name :=
  (b.find? (fun e => e.1 = k)).map (fun e => e.2)

/-- Embedding of the export phase of `_execute_yaml_script` (lines
749-750): when a script declares an `export` block, `_save_to_excel` is
called with `config["export"]["path"]` unconditionally; a missing `path`
key raises a `KeyError` that propagates out of the phase; with no
`export` block nothing happens.  The result carries the new stage, the
recorded exports and the path actually written, or the propagated error. -/
def exportPhase (w : SheetWriter) (stage : Stage) (exports : List Name)
    (block : Option ExportBlock) : Except Unit (Stage × List Name × Option Name) :=
  match block with
  | none => Except.ok (stage, exports, none)
  | some b =>
    match blockGet b ("path".toList) with
    | none => Except.error ()
    | some p =>
      let r := saveToExcel w p stage exports
      Except.ok (r.1, r.2, some p)

/-- The constant `SheetQL.DEFAULT_EXPORT_FILENAME` (defined on the class
and never referenced anywhere else in the module). -/
def DEFAULT_EXPORT_FILENAME : Name := "query_result.xlsx".toList

/-- The history capacity `SheetQL.HISTORY_MAX_LEN`. -/
def HISTORY_MAX_LEN : Nat := 50

/-- Embedding of `self.history.append(q)` on `deque(maxlen=50)`: append
on the right, discarding the leftmost entry when the deque is full. -/
def record (h : List String) (q : String) : List String :=
  if h.length < HISTORY_MAX_LEN then h ++ [q] else h.drop 1 ++ [q]

/-- The history contents after a whole session of recorded queries,
starting from the empty deque of `__init__`. -/
def histAfter (qs : List String) : List String :=
  qs.foldl record []

/-- The last `n` elements of a list, in order. -/
def lastN (n : Nat) (l : List String) : List String :=
  l.drop (l.length - n)

/-- Embedding of `SheetQL._handle_history_rerun` for `!idx` (after the
integer parse): when `1 <= idx <= len(history)` the stored string
`history[idx - 1]` is passed to `_execute_query`, otherwise nothing
runs; the history itself is never touched (the `history.append` of the
interactive loop is bypassed on the `!` branch, which `continue`s). -/
def handleHistoryRerun (hist : List String) (idx : Nat) :
    Option String × List String :=
  if 1 ≤ idx ∧ idx ≤ hist.length then ((hist.get? (idx - 1)), hist)
  else (none, hist)

/-- The external world seen by `_load_data`, at the engine and
filesystem boundary: `viewOk p` tells whether the `CREATE OR REPLACE
VIEW` call for a single-table path succeeds, and `excel p` describes a
spreadsheet path: `none` when opening the workbook raises, otherwise the
sheet-name list together with an optional index at which reading a sheet
raises. -/
structure LoadEnv where
  viewOk : Name → Bool
  excel : Name → Option (List Name × Option Nat)

/-- The table names appended to `loaded_tables` while `_load_data`
processes one path: a single-table format contributes its derived name
when the view call succeeds and nothing when the caught exception fires;
the Excel branch contributes one per-sheet name per sheet read before
any raise; unsupported extensions contribute nothing. -/
def fileContribution (env : LoadEnv) (p : Name) : List Name :=
  match fmtOfExt (extOf p) with
  | some f => if env.viewOk p then [tableName p f] else []
  | none =>
    if isExcelExt (extOf p) then
      match env.excel p with
      | none => []
      | some (sheets, none) => sheets.map (fun s => sheetTableName p s)
      | some (sheets, some k) => (sheets.take k).map (fun s => sheetTableName p s)
    else []

/-- Whether processing the path raises before any table is created:
the view call for a single-table format raises, or the workbook cannot
be opened.  (The per-file `try` of `_load_data` catches it either way.) -/
def fileFailsAtBoundary (env : LoadEnv) (p : Name) : Bool :=
  match fmtOfExt (extOf p) with
  | some _ => !env.viewOk p
  | none =>
    if isExcelExt (extOf p) then (env.excel p).isNone
    else false

/-- Whether the path's extension falls through every format branch of
`_load_data` to the `Skipping unsupported type` warning. -/
def isUnsupportedPath (p : Name) : Bool :=
  (fmtOfExt (extOf p)).isNone && !isExcelExt (extOf p)

/-- Embedding of the main loop of `_load_data`: the per-path iteration
accumulates `loaded_tables`, every per-path exception being caught at
the loop body's boundary, so the method itself always returns the
accumulated list. -/
def loadData (env : LoadEnv) (paths : List Name) : List Name :=
  paths.foldl (fun acc p => acc ++ fileContribution env p) []


/-- Key membership is unchanged by the in-place update branch of
`dictSet`: the updated entry keeps its key. -/
theorem any_key_map_set (c : Cache) (k j : Name) (v : List Name) :
    ((c.map (fun e => if e.1 = k then (k, v) else e)).any (fun e => e.1 = j)) =
      (c.any (fun e => e.1 = j)) := by
  induction c with
  | nil => rfl
  | cons e c ih =>
    by_cases h : e.1 = k
    · simp only [List.map_cons, List.any_cons, h, if_true, ih]
    · simp only [List.map_cons, List.any_cons, h, if_false, ih]

/-- `dictSet` always leaves the assigned key present. -/
theorem dictHasKey_dictSet_self (c : Cache) (k : Name) (v : List Name) :
    dictHasKey (dictSet c k v) k = true := by
  unfold dictSet
  by_cases h : dictHasKey c k
  · simp only [h, if_true]
    unfold dictHasKey at h ⊢
    rw [any_key_map_set]
    exact h
  · simp only [h, Bool.false_eq_true, if_false]
    unfold dictHasKey
    simp

/-- `dictSet` does not disturb the presence of other keys. -/
theorem dictHasKey_dictSet_other (c : Cache) (k j : Name) (v : List Name)
    (hjk : j ≠ k) : dictHasKey (dictSet c k v) j = dictHasKey c j := by
  unfold dictSet
  by_cases h : dictHasKey c k
  · simp only [h, if_true]
    unfold dictHasKey
    exact any_key_map_set c k j v
  · simp only [h, Bool.false_eq_true, if_false]
    unfold dictHasKey
    simp only [List.any_append, List.any_cons, List.any_nil, Bool.or_false]
    have hd : (decide ((k, v).1 = j)) = false := by
      simp only [decide_eq_false_iff_not]
      exact fun hkj => hjk hkj.symm
    rw [hd]
    simp

/-- A popped key is gone. -/
theorem dictHasKey_dictPop_self (c : Cache) (k : Name) :
    dictHasKey (dictPop c k) k = false := by
  unfold dictPop dictHasKey
  induction c with
  | nil => rfl
  | cons e c ih =>
    rw [List.filter_cons]
    by_cases he : e.1 = k
    · have hd : decide (e.1 ≠ k) = false := by simp [he]
      rw [hd]
      simp only [Bool.false_eq_true, if_false]
      exact ih
    · have hd : decide (e.1 ≠ k) = true := by simp [he]
      rw [hd]
      simp only [if_true, List.any_cons]
      have hk : decide (e.1 = k) = false := by simp [he]
      rw [hk]
      simp only [Bool.false_or]
      exact ih

/-- `dictPop` does not disturb the presence of other keys. -/
theorem dictHasKey_dictPop_other (c : Cache) (k j : Name) (hjk : j ≠ k) :
    dictHasKey (dictPop c k) j = dictHasKey c j := by
  unfold dictPop dictHasKey
  induction c with
  | nil => rfl
  | cons e c ih =>
    rw [List.filter_cons]
    by_cases he : e.1 = k
    · have hd : decide (e.1 ≠ k) = false := by simp [he]
      rw [hd]
      have hj : decide (e.1 = j) = false := by
        simp only [decide_eq_false_iff_not]
        exact fun hej => hjk (he ▸ hej ▸ rfl)
      simp only [Bool.false_eq_true, if_false, List.any_cons, hj, Bool.false_or]
      exact ih
    · have hd : decide (e.1 ≠ k) = true := by simp [he]
      rw [hd]
      simp only [if_true, List.any_cons, ih]

/-- No entry carries an absent key. -/
theorem find?_key_none (c : Cache) (k : Name) (h : dictHasKey c k = false) :
    c.find? (fun e => e.1 = k) = none := by
  rw [List.find?_eq_none]
  intro e he
  unfold dictHasKey at h
  rw [List.any_eq_false] at h
  exact h e he

/-- Lookup of the assigned key after `dictSet`. -/
theorem dictGet_dictSet_self (c : Cache) (k : Name) (v : List Name) :
    dictGet (dictSet c k v) k = some v := by
  unfold dictGet dictSet
  by_cases h : dictHasKey c k
  · simp only [h, if_true]
    unfold dictHasKey at h
    induction c with
    | nil => simp at h
    | cons e c ih =>
      by_cases he : e.1 = k
      · rw [List.map_cons, if_pos he, List.find?_cons_of_pos _ (by simp)]
        rfl
      · rw [List.any_cons] at h
        have hc : c.any (fun e => e.1 = k) = true := by
          rcases Bool.or_eq_true_iff.mp h with h1 | h1
          · exact absurd (of_decide_eq_true h1) he
          · exact h1
        rw [List.map_cons, if_neg he,
          List.find?_cons_of_neg _ (by simpa using he)]
        exact ih hc
  · simp only [h, Bool.false_eq_true, if_false]
    rw [List.find?_append, find?_key_none c k (by simpa using h)]
    simp [List.find?_cons_of_pos]

/-- Lookup of other keys after `dictSet`. -/
theorem dictGet_dictSet_other (c : Cache) (k j : Name) (v : List Name)
    (hjk : j ≠ k) : dictGet (dictSet c k v) j = dictGet c j := by
  unfold dictGet dictSet
  by_cases h : dictHasKey c k
  · simp only [h, if_true]
    congr 1
    clear h
    induction c with
    | nil => rfl
    | cons e c ih =>
      by_cases he : e.1 = k
      · have h1 : ¬((k, v).1 = j) := fun hh => hjk hh.symm
        have h2 : ¬(e.1 = j) := fun hh => hjk (he ▸ hh ▸ rfl)
        rw [List.map_cons, if_pos he, List.find?_cons_of_neg _ (by simpa using h1),
          List.find?_cons_of_neg _ (by simpa using h2)]
        exact ih
      · by_cases hj : e.1 = j
        · rw [List.map_cons, if_neg he, List.find?_cons_of_pos _ (by simpa using hj),
            List.find?_cons_of_pos _ (by simpa using hj)]
        · rw [List.map_cons, if_neg he, List.find?_cons_of_neg _ (by simpa using hj),
            List.find?_cons_of_neg _ (by simpa using hj)]
          exact ih
  · simp only [h, Bool.false_eq_true, if_false]
    rw [List.find?_append]
    have h1 : List.find? (fun e => e.1 = j) [(k, v)] = none := by
      rw [List.find?_eq_none]
      intro e he
      rw [List.mem_singleton] at he
      subst he
      simp only [decide_eq_true_eq]
      exact fun hh => hjk hh.symm
    rw [h1, Option.or_none]

/-- Lookup of other keys after `dictPop`. -/
theorem dictGet_dictPop_other (c : Cache) (k j : Name) (hjk : j ≠ k) :
    dictGet (dictPop c k) j = dictGet c j := by
  unfold dictGet dictPop
  congr 1
  induction c with
  | nil => rfl
  | cons e c ih =>
    rw [List.filter_cons]
    by_cases he : e.1 = k
    · have hd : decide (e.1 ≠ k) = false := by simp [he]
      rw [hd]
      have h2 : ¬(e.1 = j) := fun hh => hjk (he ▸ hh ▸ rfl)
      simp only [Bool.false_eq_true, if_false]
      rw [List.find?_cons_of_neg _ (by simpa using h2)]
      exact ih
    · have hd : decide (e.1 ≠ k) = true := by simp [he]
      rw [hd]
      by_cases hj : e.1 = j
      · simp only [if_true]
        rw [List.find?_cons_of_pos _ (by simpa using hj),
          List.find?_cons_of_pos _ (by simpa using hj)]
      · simp only [if_true]
        rw [List.find?_cons_of_neg _ (by simpa using hj),
          List.find?_cons_of_neg _ (by simpa using hj)]
        exact ih

/-- A successful resolution returns a stored name equal to the query
ignoring case. -/
theorem resolves_some (reg : Registry) (n k : Name)
    (h : resolves reg n = some k) : k ∈ reg ∧ lowerName k = lowerName n := by
  unfold resolves at h
  have h1 := List.find?_some h
  simp only [decide_eq_true_eq] at h1
  exact ⟨List.mem_of_find?_eq_some h, h1⟩

/-- A failed resolution means no stored name matches ignoring case. -/
theorem resolves_none (reg : Registry) (n : Name)
    (h : resolves reg n = none) : ∀ k ∈ reg, lowerName k ≠ lowerName n := by
  unfold resolves at h
  intro k hk
  have hx := List.find?_eq_none.mp h k hk
  simpa using hx

/-- Shape of a successful engine rename. -/
theorem renameView_ok (reg : Registry) (old new kr : Name)
    (hold : resolves reg old = some kr) (hnew : resolves reg new = none) :
    renameView reg old new =
      Except.ok (reg.map (fun x => if x = kr then new else x)) := by
  unfold renameView
  rw [hold, hnew]
  rfl

/-- Key presence is the existence of an entry with that key. -/
theorem dictHasKey_iff (c : Cache) (k : Name) :
    dictHasKey c k = true ↔ ∃ e ∈ c, e.1 = k := by
  unfold dictHasKey
  simp

/-- Claim C1, amended.  For a successful rename issued by the
interactive `.rename` command from a coherent session state (cache keys
and registry names agree, and the engine catalog never holds two names
equal ignoring case), the new table name is a key of the schema cache
and a table of the registry, the biconditional of the claim holds for
it, and the old name is afterwards absent from both.  For alias-driven
renames during script execution, however, only the registry is updated:
the alias loop of `_execute_yaml_script` leaves the schema cache
entirely unchanged, so the claimed coherence does not extend to that
path. -/
theorem c1_rename_cache_coherence
    (reg : Registry) (cache : Cache) (old new kr : Name)
    (hold : resolves reg old = some kr)
    (hnew : resolves reg new = none)
    (hco1 : ∀ n ∈ reg, dictHasKey cache n = true)
    (hco2 : ∀ e ∈ cache, e.1 ∈ reg)
    (hnd : reg.Pairwise (fun a b => lowerName a ≠ lowerName b)) :
    ((new ∈ (renameTable reg cache old new).1) ↔
        dictHasKey (renameTable reg cache old new).2 new = true) ∧
      old ∉ (renameTable reg cache old new).1 ∧
      dictHasKey (renameTable reg cache old new).2 old = false ∧
      ∀ (reg2 : Registry) (cache2 : Cache) (loaded : List Name)
        (am : List (Name × Name)), (aliasPhase reg2 cache2 loaded am).2 = cache2 := by
  obtain ⟨hkrmem, hkrlow⟩ := resolves_some reg old kr hold
  have hnewall := resolves_none reg new hnew
  have hsym : Symmetric (fun a b : Name => lowerName a ≠ lowerName b) :=
    fun _ _ h => h.symm
  have hpair := hnd.forall hsym
  have hkrkey : dictHasKey cache kr = true := hco1 kr hkrmem
  obtain ⟨ekr, hekrmem, hekrkey⟩ := (dictHasKey_iff cache kr).mp hkrkey
  have hfind1 : (cache.find? (fun e => lowerName e.1 = lowerName old)).isSome := by
    rw [List.find?_isSome]
    exact ⟨ekr, hekrmem, by simp [hekrkey, hkrlow]⟩
  obtain ⟨e0, he0⟩ := Option.isSome_iff_exists.mp hfind1
  have he0mem := List.mem_of_find?_eq_some he0
  have he0low : lowerName e0.1 = lowerName old := by
    have h1 := List.find?_some he0
    simpa using h1
  have he0reg : e0.1 ∈ reg := hco2 e0 he0mem
  have he0kr : e0.1 = kr := by
    by_contra hne
    exact hpair he0reg hkrmem hne (he0low.trans hkrlow.symm)
  have hfind2 : (cache.find? (fun e => e.1 = e0.1)).isSome := by
    rw [List.find?_isSome]
    exact ⟨e0, he0mem, by simp⟩
  obtain ⟨e1, he1⟩ := Option.isSome_iff_exists.mp hfind2
  have hup : renameCacheUpdate cache old new = dictSet (dictPop cache e0.1) new e1.2 := by
    unfold renameCacheUpdate
    simp only [he0, he1]
  have hrt : renameTable reg cache old new =
      (reg.map (fun x => if x = kr then new else x),
        dictSet (dictPop cache e0.1) new e1.2) := by
    unfold renameTable
    rw [renameView_ok reg old new kr hold hnew, hup]
  have hnewmem : new ∈ reg.map (fun x => if x = kr then new else x) :=
    List.mem_map.mpr ⟨kr, hkrmem, by simp⟩
  have holdnew : old ≠ new := by
    intro h
    exact hnewall kr hkrmem (hkrlow.trans (congrArg lowerName h))
  refine ⟨?_, ?_, ?_, ?_⟩
  · rw [hrt]
    constructor
    · intro _
      exact dictHasKey_dictSet_self _ _ _
    · intro _
      exact hnewmem
  · rw [hrt]
    intro hmem
    obtain ⟨x, hx, hfx⟩ := List.mem_map.mp hmem
    by_cases hxkr : x = kr
    · rw [if_pos hxkr] at hfx
      exact holdnew hfx.symm
    · rw [if_neg hxkr] at hfx
      subst hfx
      exact hpair hx hkrmem hxkr (hkrlow.symm ▸ rfl)
  · rw [hrt]
    simp only
    rw [dictHasKey_dictSet_other _ _ _ _ holdnew]
    by_cases holdkr : old = e0.1
    · rw [holdkr]
      exact dictHasKey_dictPop_self _ _
    · rw [dictHasKey_dictPop_other _ _ _ (fun h => holdkr h)]
      by_contra hcon
      rw [Bool.not_eq_false] at hcon
      obtain ⟨eo, heomem, heokey⟩ := (dictHasKey_iff cache old).mp hcon
      have hor : old ∈ reg := heokey ▸ hco2 eo heomem
      have : old ≠ kr := fun h => holdkr (h.trans he0kr.symm)
      exact hpair hor hkrmem this hkrlow.symm
  · intro reg2 cache2 loaded am
    rfl

/-- Witness for `c1_rename_cache_coherence`: the end-to-end scenario of
renaming `sample_csv` to `renamed_csv`. -/
theorem c1_rename_cache_coherence_witness :
    (("renamed_csv".toList ∈
        (renameTable ["sample_csv".toList]
          [("sample_csv".toList, ["ID".toList])]
          "sample_csv".toList "renamed_csv".toList).1) ↔
      dictHasKey
        (renameTable ["sample_csv".toList]
          [("sample_csv".toList, ["ID".toList])]
          "sample_csv".toList "renamed_csv".toList).2 "renamed_csv".toList = true) ∧
    "sample_csv".toList ∉
      (renameTable ["sample_csv".toList]
        [("sample_csv".toList, ["ID".toList])]
        "sample_csv".toList "renamed_csv".toList).1 ∧
    dictHasKey
      (renameTable ["sample_csv".toList]
        [("sample_csv".toList, ["ID".toList])]
        "sample_csv".toList "renamed_csv".toList).2 "sample_csv".toList = false ∧
    ∀ (reg2 : Registry) (cache2 : Cache) (loaded : List Name)
      (am : List (Name × Name)), (aliasPhase reg2 cache2 loaded am).2 = cache2 :=
  c1_rename_cache_coherence ["sample_csv".toList]
    [("sample_csv".toList, ["ID".toList])]
    "sample_csv".toList "renamed_csv".toList "sample_csv".toList
    (by decide) (by decide) (by decide) (by decide) (by decide)

/-- Counterexample to claim C1 as stated: a successful alias-driven
rename during script execution (table `data_csv` aliased to `my_data`
from input `data.csv`) puts the new name in the registry but never into
the schema cache, and leaves the old name as a stale cache key, so the
claimed biconditional fails. -/
theorem c1_counterexample :
    ("my_data".toList ∈
      (aliasPhase ["data_csv".toList] [("data_csv".toList, ["ID".toList])]
        ["data_csv".toList] [("data.csv".toList, "my_data".toList)]).1) ∧
    ¬(("my_data".toList ∈
        (aliasPhase ["data_csv".toList] [("data_csv".toList, ["ID".toList])]
          ["data_csv".toList] [("data.csv".toList, "my_data".toList)]).1) ↔
      dictHasKey
        (aliasPhase ["data_csv".toList] [("data_csv".toList, ["ID".toList])]
          ["data_csv".toList] [("data.csv".toList, "my_data".toList)]).2
        "my_data".toList = true) ∧
    dictHasKey
      (aliasPhase ["data_csv".toList] [("data_csv".toList, ["ID".toList])]
        ["data_csv".toList] [("data.csv".toList, "my_data".toList)]).2
      "data_csv".toList = true ∧
    "data_csv".toList ∉
      (aliasPhase ["data_csv".toList] [("data_csv".toList, ["ID".toList])]
        ["data_csv".toList] [("data.csv".toList, "my_data".toList)]).1 := by
  decide

/-- With distinct keys, the entry of a present key is found exactly. -/
theorem find?_key_of_mem_nodup (c : Cache) (e : Name × List Name)
    (hmem : e ∈ c) (hnodup : (c.map Prod.fst).Nodup) :
    c.find? (fun x => x.1 = e.1) = some e := by
  induction c with
  | nil => cases hmem
  | cons a c ih =>
    rw [List.map_cons, List.nodup_cons] at hnodup
    rcases List.mem_cons.mp hmem with he | he
    · subst he
      rw [List.find?_cons_of_pos _ (by simp)]
    · have hane : ¬(a.1 = e.1) :=
        fun h => hnodup.1 (h ▸ List.mem_map_of_mem Prod.fst he)
      rw [List.find?_cons_of_neg _ (by simpa using hane)]
      exact ih he hnodup.2

/-- Claim C10.  For the interactive rename command, after a successful
engine rename: if some cache key equals the old name ignoring case, the
first such entry (and only that one) is moved to the new name — its
columns become the value under the new key, the matched key disappears,
and every other key keeps its value; if no cache key matches even
case-insensitively, the registry rename still goes through and the
cache is left without any entry under the new name. -/
theorem c10_rename_cache_lookup
    (reg : Registry) (cache : Cache) (old new kr : Name)
    (hold : resolves reg old = some kr)
    (hnew : resolves reg new = none)
    (hnodup : (cache.map Prod.fst).Nodup) :
    ((renameTable reg cache old new).1 =
        reg.map (fun x => if x = kr then new else x)) ∧
    (∀ e0, cache.find? (fun e => lowerName e.1 = lowerName old) = some e0 →
      dictGet (renameTable reg cache old new).2 new = some e0.2 ∧
      (e0.1 ≠ new → dictHasKey (renameTable reg cache old new).2 e0.1 = false) ∧
      (∀ j, j ≠ e0.1 → j ≠ new →
        dictGet (renameTable reg cache old new).2 j = dictGet cache j)) ∧
    (cache.find? (fun e => lowerName e.1 = lowerName old) = none →
      (renameTable reg cache old new).2 = cache) := by
  have hview := renameView_ok reg old new kr hold hnew
  have hrt1 : (renameTable reg cache old new).1 =
      reg.map (fun x => if x = kr then new else x) := by
    unfold renameTable
    rw [hview]
  have hrt2 : (renameTable reg cache old new).2 =
      renameCacheUpdate cache old new := by
    unfold renameTable
    rw [hview]
  refine ⟨hrt1, ?_, ?_⟩
  · intro e0 hfm
    have he0mem := List.mem_of_find?_eq_some hfm
    have hfk := find?_key_of_mem_nodup cache e0 he0mem hnodup
    have hup : renameCacheUpdate cache old new =
        dictSet (dictPop cache e0.1) new e0.2 := by
      unfold renameCacheUpdate
      simp only [hfm, hfk]
    rw [hrt2, hup]
    refine ⟨dictGet_dictSet_self _ _ _, ?_, ?_⟩
    · intro hne
      rw [dictHasKey_dictSet_other _ _ _ _ hne]
      exact dictHasKey_dictPop_self _ _
    · intro j hj0 hjnew
      rw [dictGet_dictSet_other _ _ _ _ hjnew, dictGet_dictPop_other _ _ _ hj0]
  · intro hfm
    have hfk : cache.find? (fun e => e.1 = old) = none := by
      rw [List.find?_eq_none]
      intro e he
      have hx := List.find?_eq_none.mp hfm e he
      simp only [decide_eq_true_eq] at hx ⊢
      exact fun h => hx (h ▸ rfl)
    rw [hrt2]
    unfold renameCacheUpdate
    simp only [hfm, hfk]

/-- Witness for `c10_rename_cache_lookup`: renaming with a differently
cased old name still moves the cache entry found case-insensitively. -/
theorem c10_rename_cache_lookup_witness :
    dictGet
      (renameTable ["Sample_CSV".toList]
        [("Sample_CSV".toList, ["ID".toList])]
        "sample_csv".toList "renamed_csv".toList).2
      "renamed_csv".toList = some ["ID".toList] ∧
    dictHasKey
      (renameTable ["Sample_CSV".toList]
        [("Sample_CSV".toList, ["ID".toList])]
        "sample_csv".toList "renamed_csv".toList).2
      "Sample_CSV".toList = false :=
  have h := c10_rename_cache_lookup ["Sample_CSV".toList]
    [("Sample_CSV".toList, ["ID".toList])]
    "sample_csv".toList "renamed_csv".toList "Sample_CSV".toList
    (by decide) (by decide) (by decide)
  ⟨(h.2.1 ("Sample_CSV".toList, ["ID".toList]) (by decide)).1,
    (h.2.1 ("Sample_CSV".toList, ["ID".toList]) (by decide)).2.1 (by decide)⟩

/-- Claim C2.  `_save_to_excel` hands the full staged mapping to the
writer; it clears the Result Stage exactly when the writer call
succeeds, and a raising writer leaves the staged mapping (and the
recorded exports) exactly as they were, so the user can retry. -/
theorem c2_export_clears_iff_success (w : SheetWriter) (p : Name)
    (st : Stage) (ex : List Name) :
    (w p st = true → saveToExcel w p st ex = ([], ex ++ [p])) ∧
    (w p st = false → saveToExcel w p st ex = (st, ex)) ∧
    (st ≠ [] → ((saveToExcel w p st ex).1 = [] ↔ w p st = true)) := by
  refine ⟨?_, ?_, ?_⟩
  · intro h
    unfold saveToExcel
    rw [h]
    rfl
  · intro h
    unfold saveToExcel
    rw [h]
    rfl
  · intro hst
    unfold saveToExcel
    by_cases h : w p st
    · rw [h]
      simp [h]
    · rw [Bool.not_eq_true] at h
      rw [h]
      simp only [Bool.false_eq_true, if_false, iff_false]
      exact hst

/-- Witness for `c2_export_clears_iff_success`: a one-entry stage with a
succeeding writer is cleared and the export recorded; with a raising
writer it stays intact. -/
theorem c2_export_clears_iff_success_witness :
    saveToExcel (fun _ _ => true) "out.xlsx".toList
        [("r1".toList, (0 : Df))] [] = ([], ["out.xlsx".toList]) ∧
    saveToExcel (fun _ _ => false) "out.xlsx".toList
        [("r1".toList, (0 : Df))] [] = ([("r1".toList, (0 : Df))], []) :=
  ⟨(c2_export_clears_iff_success (fun _ _ => true) "out.xlsx".toList
      [("r1".toList, (0 : Df))] []).1 rfl,
    (c2_export_clears_iff_success (fun _ _ => false) "out.xlsx".toList
      [("r1".toList, (0 : Df))] []).2.1 rfl⟩

/-- Claim C5, amended.  In the script engine's export phase, an `export`
block that declares a path hands all staged results (the possibly empty
mapping) to the Excel saver at exactly that path; an `export` block
without a `path` key raises a `KeyError` that propagates — the unused
constant `DEFAULT_EXPORT_FILENAME` is never substituted — and the
empty-stage report exists only in the interactive `.export` command, not
in this phase; with no `export` block nothing is written. -/
theorem c5_export_phase (w : SheetWriter) (st : Stage) (ex : List Name)
    (b : ExportBlock) :
    (exportPhase w st ex none = Except.ok (st, ex, none)) ∧
    (blockGet b ("path".toList) = none →
      exportPhase w st ex (some b) = Except.error ()) ∧
    (∀ p, blockGet b ("path".toList) = some p →
      exportPhase w st ex (some b) =
        Except.ok ((saveToExcel w p st ex).1, (saveToExcel w p st ex).2, some p)) := by
  refine ⟨rfl, ?_, ?_⟩
  · intro h
    unfold exportPhase
    simp only [h]
  · intro p h
    unfold exportPhase
    simp only [h]

/-- Witness for `c5_export_phase`: a declared path is used verbatim and
a missing path key raises. -/
theorem c5_export_phase_witness :
    exportPhase (fun _ _ => true) [("r1".toList, (0 : Df))] []
        (some [("path".toList, "report.xlsx".toList)]) =
      Except.ok ([], ["report.xlsx".toList], some "report.xlsx".toList) ∧
    exportPhase (fun _ _ => true) [("r1".toList, (0 : Df))] [] (some []) =
      Except.error () :=
  ⟨by
    rw [(c5_export_phase (fun _ _ => true) [("r1".toList, (0 : Df))] []
        [("path".toList, "report.xlsx".toList)]).2.2 "report.xlsx".toList (by decide)]
    rfl,
   (c5_export_phase (fun _ _ => true) [("r1".toList, (0 : Df))] [] []).2.1 (by decide)⟩

/-- Counterexample to claim C5 as stated: with staged results present
and a script export block that declares no path, the phase raises a
`KeyError` instead of writing the staged results to the default file
name `query_result.xlsx`; `DEFAULT_EXPORT_FILENAME` is never consulted. -/
theorem c5_counterexample :
    exportPhase (fun _ _ => true) [("r1".toList, (0 : Df))] [] (some []) =
      Except.error () ∧
    exportPhase (fun _ _ => true) [("r1".toList, (0 : Df))] [] (some []) ≠
      Except.ok ([], [DEFAULT_EXPORT_FILENAME], some DEFAULT_EXPORT_FILENAME) :=
  ⟨rfl, fun h => Except.noConfusion h⟩

/-- Claim C6, amended.  For every in-range 1-based index (between 1 and
the history length), `_handle_history_rerun` re-executes a query string
identical to the one stored at that position; out-of-range indices run
nothing.  The replayed string is not re-recorded: the `!N` branch of the
interactive loop bypasses the `history.append` call, so the history is
left unchanged by a replay. -/
theorem c6_replay_exact_not_rerecorded (hist : List String) (idx : Nat)
    (h1 : 1 ≤ idx) (h2 : idx ≤ hist.length) :
    (handleHistoryRerun hist idx).1 = hist.get? (idx - 1) ∧
    (∃ q, hist.get? (idx - 1) = some q ∧
      (handleHistoryRerun hist idx).1 = some q) ∧
    (handleHistoryRerun hist idx).2 = hist := by
  have hin : idx - 1 < hist.length := by omega
  have hget : ∃ q, hist.get? (idx - 1) = some q := by
    rw [List.get?_eq_get hin]
    exact ⟨hist.get ⟨idx - 1, hin⟩, rfl⟩
  unfold handleHistoryRerun
  rw [if_pos ⟨h1, h2⟩]
  obtain ⟨q, hq⟩ := hget
  exact ⟨rfl, ⟨q, hq, hq⟩, rfl⟩

/-- Witness for `c6_replay_exact_not_rerecorded`: replaying entry 2 of a
two-entry history runs exactly the stored string and leaves the history
as it was. -/
theorem c6_replay_exact_not_rerecorded_witness :
    (handleHistoryRerun ["SELECT 1;", "SELECT 2;"] 2).1 =
      ["SELECT 1;", "SELECT 2;"].get? 1 ∧
    (∃ q, ["SELECT 1;", "SELECT 2;"].get? 1 = some q ∧
      (handleHistoryRerun ["SELECT 1;", "SELECT 2;"] 2).1 = some q) ∧
    (handleHistoryRerun ["SELECT 1;", "SELECT 2;"] 2).2 =
      ["SELECT 1;", "SELECT 2;"] :=
  c6_replay_exact_not_rerecorded ["SELECT 1;", "SELECT 2;"] 2
    (by decide) (by decide)

/-- Counterexample to claim C6 as stated: replaying the only entry of a
one-entry history leaves the history with one entry; the replayed string
is not appended as a new history entry (which `record` would have
produced). -/
theorem c6_counterexample :
    (handleHistoryRerun ["SELECT 1;"] 1).2 = ["SELECT 1;"] ∧
    (handleHistoryRerun ["SELECT 1;"] 1).2 ≠
      record ["SELECT 1;"] "SELECT 1;" := by
  refine ⟨rfl, ?_⟩
  intro h
  have : (["SELECT 1;"] : List String) = ["SELECT 1;", "SELECT 1;"] := h
  cases this

/-- Claim C3, amended.  The alias loop matches a loaded table against an
input by testing whether the portion of the input's file name before the
first dot — unsanitized — occurs anywhere as a substring of the table
name (`fname.split(".")[0] in tbl`); no prefix test of the sanitized
base name plus format suffix is performed.  On a match the engine rename
targets the alias itself: no `_<sheet>` remainder is appended. -/
theorem c3_alias_matching (reg : Registry) (tbl fn al k : Name) :
    (isSubstring (splitDotHead fn) tbl = false →
      aliasStep1 reg tbl (fn, al) = reg) ∧
    (isSubstring (splitDotHead fn) tbl = true →
      resolves reg tbl = some k → resolves reg al = none →
      aliasStep1 reg tbl (fn, al) = reg.map (fun x => if x = k then al else x)) := by
  constructor
  · intro h
    unfold aliasStep1
    rw [h]
    rfl
  · intro h hk hal
    unfold aliasStep1
    rw [h]
    simp only [if_true]
    rw [renameView_ok reg tbl al k hk hal]

/-- Witness for `c3_alias_matching`: the sheet table `data_s1` of input
`data.xlsx` is renamed to the bare alias `my`, and the sanitized name
`my_data_csv` of input `my-data.csv` is not matched at all. -/
theorem c3_alias_matching_witness :
    aliasStep1 ["data_s1".toList] "data_s1".toList
        ("data.xlsx".toList, "my".toList) = ["my".toList] ∧
    aliasStep1 ["my_data_csv".toList] "my_data_csv".toList
        ("my-data.csv".toList, "x".toList) = ["my_data_csv".toList] :=
  ⟨by
    rw [(c3_alias_matching ["data_s1".toList] "data_s1".toList
        "data.xlsx".toList "my".toList "data_s1".toList).2
      (by decide) (by decide) (by decide)]
    rfl,
   (c3_alias_matching ["my_data_csv".toList] "my_data_csv".toList
        "my-data.csv".toList "x".toList "my_data_csv".toList).1 (by decide)⟩

/-- Counterexample to claim C3 as stated: for the multi-sheet input
`data.xlsx` with loaded sheet table `data_s1` and alias `my`, the claim
predicts the target name `my_s1` (alias plus sheet remainder); the code
renames the table to plain `my`, and `my_s1` never appears.  Moreover,
for input `my-data.csv` with loaded table `my_data_csv`, a prefix match
on the sanitized base name plus suffix would fire, but the code's raw
substring test does not, so no rename happens at all. -/
theorem c3_counterexample :
    aliasApply ["data_s1".toList] ["data_s1".toList]
        [("data.xlsx".toList, "my".toList)] = ["my".toList] ∧
    "my_s1".toList ∉
      aliasApply ["data_s1".toList] ["data_s1".toList]
        [("data.xlsx".toList, "my".toList)] ∧
    aliasApply ["my_data_csv".toList] ["my_data_csv".toList]
        [("my-data.csv".toList, "x".toList)] = ["my_data_csv".toList] := by
  decide

/-- A single alias attempt whose target name already resolves in the
catalog leaves the registry unchanged: the engine rename raises and the
exception is swallowed; no drop is ever issued. -/
theorem aliasStep1_target_exists (reg : Registry) (tbl : Name)
    (fa : Name × Name) (h : (resolves reg fa.2).isSome = true) :
    aliasStep1 reg tbl fa = reg := by
  unfold aliasStep1
  by_cases hs : isSubstring (splitDotHead fa.1) tbl
  · rw [hs]
    simp only [if_true]
    unfold renameView
    cases hr : resolves reg tbl with
    | none => rfl
    | some k => simp [hr, h]
  · rw [Bool.not_eq_true] at hs
    rw [hs]
    rfl

/-- The inner alias loop over the alias map, for one table, is the
identity when every alias target already resolves. -/
theorem aliasFold_target_exists (reg : Registry) (tbl : Name)
    (am : List (Name × Name))
    (h : ∀ fa ∈ am, (resolves reg fa.2).isSome = true) :
    am.foldl (fun r2 fa => aliasStep1 r2 tbl fa) reg = reg := by
  induction am with
  | nil => rfl
  | cons fa am iha =>
    rw [List.foldl_cons, aliasStep1_target_exists reg tbl fa
      (h fa (List.mem_cons_self fa am))]
    exact iha (fun x hx => h x (List.mem_cons_of_mem fa hx))

/-- Claim C4, amended.  No table is ever dropped by the alias loop: when
a table already exists under the target name, the alias-driven rename
fails inside the engine, the error is silently swallowed, and every
loaded table keeps its original derived name — the registry is left
completely unchanged.  In particular, re-running a script whose aliases
already exist leaves the freshly loaded tables under their derived
names, so the collision persists instead of being resolved. -/
theorem c4_alias_no_drop (reg : Registry) (loaded : List Name)
    (am : List (Name × Name))
    (h : ∀ fa ∈ am, (resolves reg fa.2).isSome = true) :
    aliasApply reg loaded am = reg := by
  unfold aliasApply
  induction loaded with
  | nil => rfl
  | cons tbl loaded ih =>
    rw [List.foldl_cons, aliasFold_target_exists reg tbl am h]
    exact ih

/-- Witness for `c4_alias_no_drop`: re-running the aliasing of
`data_csv` to `my_data` when `my_data` already exists changes nothing. -/
theorem c4_alias_no_drop_witness :
    aliasApply ["my_data".toList, "data_csv".toList] ["data_csv".toList]
      [("data.csv".toList, "my_data".toList)] =
    ["my_data".toList, "data_csv".toList] :=
  c4_alias_no_drop ["my_data".toList, "data_csv".toList] ["data_csv".toList]
    [("data.csv".toList, "my_data".toList)] (by decide)

/-- Counterexample to claim C4 as stated: with `my_data` already present
(from a previous script run) and the freshly loaded `data_csv` to be
aliased to `my_data`, the claim predicts the existing `my_data` is
dropped and the rename succeeds, leaving exactly the renamed table; the
code drops nothing, the rename fails silently, both names remain, and
the collision persists. -/
theorem c4_counterexample :
    aliasApply ["my_data".toList, "data_csv".toList] ["data_csv".toList]
        [("data.csv".toList, "my_data".toList)] =
      ["my_data".toList, "data_csv".toList] ∧
    "data_csv".toList ∈
      aliasApply ["my_data".toList, "data_csv".toList] ["data_csv".toList]
        [("data.csv".toList, "my_data".toList)] ∧
    aliasApply ["my_data".toList, "data_csv".toList] ["data_csv".toList]
        [("data.csv".toList, "my_data".toList)] ≠ ["my_data".toList] := by
  decide

/-- Dropping the head does not change the last `n` elements of a list
that has at least `n` elements behind its head. -/
theorem lastN_cons_of_le (n : Nat) (a : String) (l : List String)
    (hn : n ≤ l.length) : lastN n (a :: l) = lastN n l := by
  unfold lastN
  have hlen : (a :: l).length - n = (l.length - n) + 1 := by
    rw [List.length_cons]
    omega
  rw [hlen, List.drop_succ_cons]

/-- Folding `record` over a session's queries keeps exactly the last
`HISTORY_MAX_LEN` entries, in order. -/
theorem foldl_record_lastN (qs : List String) :
    ∀ h : List String, h.length ≤ HISTORY_MAX_LEN →
      List.foldl record h qs = lastN HISTORY_MAX_LEN (h ++ qs) := by
  induction qs with
  | nil =>
    intro h hle
    rw [List.foldl_nil, List.append_nil]
    unfold lastN
    rw [Nat.sub_eq_zero_of_le hle, List.drop_zero]
  | cons q qs ih =>
    intro h hle
    rw [List.foldl_cons]
    by_cases hlt : h.length < HISTORY_MAX_LEN
    · have hrec : record h q = h ++ [q] := by
        unfold record
        rw [if_pos hlt]
      rw [hrec, ih (h ++ [q]) (by rw [List.length_append]; simpa using hlt),
        List.append_assoc, List.singleton_append]
    · have hlen : h.length = HISTORY_MAX_LEN :=
        Nat.le_antisymm hle (Nat.not_lt.mp hlt)
      have hrec : record h q = h.drop 1 ++ [q] := by
        unfold record
        rw [if_neg hlt]
      rw [hrec, ih (h.drop 1 ++ [q])
        (by
          rw [List.length_append, List.length_drop]
          unfold HISTORY_MAX_LEN at hlen ⊢
          simp
          omega)]
      cases h with
      | nil => exact absurd hlen (by decide)
      | cons a t =>
        have hdrop : (a :: t).drop 1 = t := rfl
        rw [hdrop, List.append_assoc, List.singleton_append, List.cons_append]
        rw [lastN_cons_of_le]
        rw [List.length_cons] at hlen
        rw [List.length_append, List.length_cons]
        unfold HISTORY_MAX_LEN at hlen ⊢
        omega

/-- Claim C9.  Starting from the empty history, any sequence of recorded
queries leaves the History Ring holding at most `HISTORY_MAX_LEN = 50`
entries — exactly the most recent 50 queries, in insertion order and
without deduplication — and recording onto a full ring evicts exactly
the oldest entry. -/
theorem c9_history_fifo (qs : List String) :
    (histAfter qs).length ≤ HISTORY_MAX_LEN ∧
    histAfter qs = lastN HISTORY_MAX_LEN qs ∧
    (∀ q, (histAfter qs).length = HISTORY_MAX_LEN →
      histAfter (qs ++ [q]) = (histAfter qs).drop 1 ++ [q]) := by
  have hmain : histAfter qs = lastN HISTORY_MAX_LEN qs := by
    unfold histAfter
    rw [foldl_record_lastN qs [] (by simp), List.nil_append]
  refine ⟨?_, hmain, ?_⟩
  · rw [hmain]
    unfold lastN
    rw [List.length_drop]
    omega
  · intro q hfull
    unfold histAfter at hfull ⊢
    rw [List.foldl_append, List.foldl_cons, List.foldl_nil]
    set L := List.foldl record [] qs with hL
    unfold record
    rw [if_neg (by rw [hfull]; exact Nat.lt_irrefl _)]

/-- Witness for `c9_history_fifo`: recording onto a history already
holding 50 entries evicts exactly the oldest one. -/
theorem c9_history_fifo_witness :
    histAfter (List.replicate 50 "a" ++ ["b"]) =
      (histAfter (List.replicate 50 "a")).drop 1 ++ ["b"] :=
  (c9_history_fifo (List.replicate 50 "a")).2.2 "b"
    (by
      rw [(c9_history_fifo (List.replicate 50 "a")).2.1]
      unfold lastN HISTORY_MAX_LEN
      simp)

/-- Whether a name is empty or begins with a `[a-zA-Z0-9_]` character
(the shape of what follows a maximal non-word run). -/
def headIsWord (b : Name) : Bool :=
  match b with
  | [] => true
  | d :: _ => isWordChar d

/-- A word-character block passes through the sanitizer untouched. -/
theorem sanitizeAux_false_word (a b : Name)
    (ha : ∀ c ∈ a, isWordChar c = true) :
    sanitizeAux false (a ++ b) = a ++ sanitizeAux false b := by
  induction a with
  | nil => rfl
  | cons c cs ih =>
    have hc := ha c (List.mem_cons_self c cs)
    rw [List.cons_append]
    simp only [sanitizeAux, hc, if_true]
    rw [ih (fun x hx => ha x (List.mem_cons_of_mem c hx))]
    rfl

/-- Inside a run whose underscore is already emitted, remaining non-word
characters are skipped. -/
theorem sanitizeAux_true_skip (r b : Name)
    (hr : ∀ c ∈ r, isWordChar c = false) :
    sanitizeAux true (r ++ b) = sanitizeAux true b := by
  induction r with
  | nil => rfl
  | cons c cs ih =>
    have hc := hr c (List.mem_cons_self c cs)
    rw [List.cons_append]
    simp only [sanitizeAux, hc, Bool.false_eq_true, if_false, if_true]
    exact ih (fun x hx => hr x (List.mem_cons_of_mem c hx))

/-- After a run ends, the two machine states agree when the next
character (if any) is a word character. -/
theorem sanitizeAux_true_eq_false (b : Name) (hb : headIsWord b = true) :
    sanitizeAux true b = sanitizeAux false b := by
  cases b with
  | nil => rfl
  | cons d bs =>
    have hb2 : isWordChar d = true := hb
    simp only [sanitizeAux, hb2, if_true]

/-- A word-character block passes through `sanitize` untouched. -/
theorem sanitize_word_append (a b : Name)
    (ha : ∀ c ∈ a, isWordChar c = true) :
    sanitize (a ++ b) = a ++ sanitize b :=
  sanitizeAux_false_word a b ha

/-- A maximal run of non-word characters collapses to one underscore. -/
theorem sanitize_run_append (r b : Name) (hne : r ≠ [])
    (hr : ∀ c ∈ r, isWordChar c = false) (hb : headIsWord b = true) :
    sanitize (r ++ b) = '_' :: sanitize b := by
  cases r with
  | nil => exact absurd rfl hne
  | cons x r2 =>
    have hx := hr x (List.mem_cons_self x r2)
    unfold sanitize
    rw [List.cons_append]
    simp only [sanitizeAux, hx, Bool.false_eq_true, if_false]
    rw [sanitizeAux_true_skip r2 b (fun c hc => hr c (List.mem_cons_of_mem x hc)),
      sanitizeAux_true_eq_false b hb]

/-- Claim C7.  The derived table name is a pure deterministic function
of the sanitized base name and the format: paths with the same sanitized
stem get the same name for each format; sanitization leaves
word-character blocks intact and replaces every maximal run of
non-word characters with a single underscore; the single-table suffixes
are `_csv`, `_parquet` and `_json`; and loading the same file twice
derives the same table name both times. -/
theorem c7_table_name_derivation :
    (∀ p q f, sanitize (stemOf p) = sanitize (stemOf q) →
      tableName p f = tableName q f) ∧
    (∀ a b, (∀ c ∈ a, isWordChar c = true) →
      sanitize (a ++ b) = a ++ sanitize b) ∧
    (∀ r b, r ≠ [] → (∀ c ∈ r, isWordChar c = false) → headIsWord b = true →
      sanitize (r ++ b) = '_' :: sanitize b) ∧
    (fmtSuffix Fmt.csv = "_csv".toList ∧ fmtSuffix Fmt.parquet = "_parquet".toList ∧
      fmtSuffix Fmt.json = "_json".toList) ∧
    (∀ (env : LoadEnv) p f, fmtOfExt (extOf p) = some f → env.viewOk p = true →
      loadData env [p, p] = [tableName p f, tableName p f]) := by
  refine ⟨?_, sanitize_word_append, sanitize_run_append, ⟨rfl, rfl, rfl⟩, ?_⟩
  · intro p q f h
    unfold tableName
    rw [h]
  · intro env p f hf hv
    unfold loadData
    rw [List.foldl_cons, List.foldl_cons, List.foldl_nil]
    unfold fileContribution
    rw [hf, hv]
    rfl

/-- Witness for `c7_table_name_derivation`: `/tmp/data.csv` and
`./data.csv` derive the same `data_csv`; sanitization of `my-:x`; and a
double load of `data.csv` yields `data_csv` twice. -/
theorem c7_table_name_derivation_witness :
    tableName "/tmp/data.csv".toList Fmt.csv =
      tableName "./data.csv".toList Fmt.csv ∧
    sanitize ("my".toList ++ ("-:".toList ++ "x".toList)) =
      "my".toList ++ '_' :: sanitize "x".toList ∧
    loadData ⟨fun _ => true, fun _ => none⟩
        ["data.csv".toList, "data.csv".toList] =
      [tableName "data.csv".toList Fmt.csv, tableName "data.csv".toList Fmt.csv] := by
  refine ⟨?_, ?_, ?_⟩
  · exact (c7_table_name_derivation).1 "/tmp/data.csv".toList "./data.csv".toList
      Fmt.csv (by decide)
  · rw [(c7_table_name_derivation).2.1 "my".toList ("-:".toList ++ "x".toList)
      (by decide)]
    rw [(c7_table_name_derivation).2.2.1 "-:".toList "x".toList (by decide)
      (by decide) (by decide)]
  · exact (c7_table_name_derivation).2.2.2.2 ⟨fun _ => true, fun _ => none⟩
      "data.csv".toList Fmt.csv (by decide) rfl

/-- The loader's accumulator only ever grows on the right. -/
theorem loadData_acc (env : LoadEnv) (paths : List Name) :
    ∀ acc : List Name,
      paths.foldl (fun a q => a ++ fileContribution env q) acc =
        acc ++ loadData env paths := by
  induction paths with
  | nil =>
    intro acc
    unfold loadData
    rw [List.foldl_nil, List.foldl_nil, List.append_nil]
  | cons q paths ih =>
    intro acc
    rw [List.foldl_cons, ih (acc ++ fileContribution env q)]
    have h2 : loadData env (q :: paths) =
        fileContribution env q ++ loadData env paths := by
      unfold loadData
      rw [List.foldl_cons, List.nil_append]
      exact ih (fileContribution env q)
    rw [h2, List.append_assoc]

/-- Loading a concatenated batch is loading the parts in order. -/
theorem loadData_append (env : LoadEnv) (l1 l2 : List Name) :
    loadData env (l1 ++ l2) = loadData env l1 ++ loadData env l2 := by
  unfold loadData
  rw [List.foldl_append]
  exact loadData_acc env l2 _

/-- One path's processing prepends its contribution. -/
theorem loadData_cons (env : LoadEnv) (p : Name) (paths : List Name) :
    loadData env (p :: paths) = fileContribution env p ++ loadData env paths := by
  unfold loadData
  rw [List.foldl_cons, List.nil_append]
  exact loadData_acc env paths _

/-- Claim C8.  In any batch, every path contributes its tables
independently of the others; a path whose processing raises at its
boundary (failing view creation, unopenable workbook) is skipped and
contributes nothing, as is a path with an unsupported extension, and in
both cases the rest of the batch loads exactly as it would alone — the
per-file `try` of `_load_data` confines every failure, so the method
always returns the accumulated list. -/
theorem c8_load_isolation (env : LoadEnv) (xs ys : List Name) (p : Name) :
    (loadData env (xs ++ p :: ys) =
      loadData env xs ++ fileContribution env p ++ loadData env ys) ∧
    (fileFailsAtBoundary env p = true → fileContribution env p = []) ∧
    (isUnsupportedPath p = true → fileContribution env p = []) ∧
    (fileFailsAtBoundary env p = true ∨ isUnsupportedPath p = true →
      loadData env (xs ++ p :: ys) = loadData env xs ++ loadData env ys) := by
  have hsplit : loadData env (xs ++ p :: ys) =
      loadData env xs ++ fileContribution env p ++ loadData env ys := by
    rw [loadData_append, loadData_cons, List.append_assoc]
  have hfail : fileFailsAtBoundary env p = true → fileContribution env p = [] := by
    intro h
    unfold fileFailsAtBoundary at h
    unfold fileContribution
    cases hf : fmtOfExt (extOf p) with
    | some f =>
      rw [hf] at h
      simp only [Bool.not_eq_true'] at h
      rw [h]
      rfl
    | none =>
      rw [hf] at h
      by_cases hx : isExcelExt (extOf p) = true
      · rw [hx] at h
        simp only [if_true] at h
        rw [Option.isNone_iff_eq_none] at h
        rw [hx, h]
        rfl
      · rw [Bool.not_eq_true] at hx
        rw [hx] at h
        simp at h
  have hunsup : isUnsupportedPath p = true → fileContribution env p = [] := by
    intro h
    unfold isUnsupportedPath at h
    rw [Bool.and_eq_true] at h
    obtain ⟨h1, h2⟩ := h
    rw [Option.isNone_iff_eq_none] at h1
    unfold fileContribution
    rw [h1]
    rw [Bool.not_eq_true'] at h2
    rw [h2]
    rfl
  refine ⟨hsplit, hfail, hunsup, ?_⟩
  intro h
  have hcontrib : fileContribution env p = [] := by
    cases h with
    | inl h => exact hfail h
    | inr h => exact hunsup h
  rw [hsplit, hcontrib, List.append_nil]

/-- Witness for `c8_load_isolation`: a batch with a failing CSV and an
unsupported extension still loads the surrounding files. -/
theorem c8_load_isolation_witness :
    loadData ⟨fun q => !(q = "bad.csv".toList), fun _ => none⟩
        (["a.csv".toList] ++ "bad.csv".toList :: ["b.json".toList, "w.xyz".toList]) =
      loadData ⟨fun q => !(q = "bad.csv".toList), fun _ => none⟩ ["a.csv".toList] ++
        loadData ⟨fun q => !(q = "bad.csv".toList), fun _ => none⟩
          ["b.json".toList, "w.xyz".toList] :=
  (c8_load_isolation ⟨fun q => !(q = "bad.csv".toList), fun _ => none⟩
    ["a.csv".toList] ["b.json".toList, "w.xyz".toList] "bad.csv".toList).2.2.2
    (Or.inl (by decide))
